import Mathlib

/-!
Shallow embedding of the overlap-block resolution and consensus core of the
sga repository (src/Algorithm/OverlapBlock.cpp, src/Algorithm/ErrorCorrectProcess.cpp,
src/Util/Pileup.cpp), together with proofs about the embedded code.

Machine integers (int, int64_t) are modelled as unbounded Int: the quantities
involved are BWT interval coordinates and overlap lengths, for which overflow
is irrelevant to the properties considered here.  Fatal assertions in the C++
code are modelled by Option: a function returns none exactly when an assert
in the source would fire.
-/

namespace SGA

/-- One closed integer range, `Interval` from Interval.h (declaration only;
the implementation file is not part of the given sources). Fields follow
the C++ member names lower/upper. -/
structure Interval where
  lower : Int
  upper : Int
deriving DecidableEq, Repr

/-- Modelled from the spec: Interval.h is not among the given source files.
Range width, `size = upper - lower + 1` (or 0 for an empty/invalid range). -/
def Interval.size (i : Interval) : Int :=
  if i.lower > i.upper then 0 else i.upper - i.lower + 1

/-- Modelled from the spec: Interval.h is not among the given source files.
A range is valid unless `lower > upper`. -/
def Interval.isValid (i : Interval) : Prop := i.lower ≤ i.upper

instance (i : Interval) : Decidable i.isValid := by
  unfold Interval.isValid; infer_instance

/-- Modelled from the spec: Interval.h is not among the given source files.
Closed-interval intersection test on the two ranges `[s1,e1]` and `[s2,e2]`,
used by removeSubMaximalBlocks to decide whether two adjacent blocks overlap. -/
def Interval.isIntersecting (s1 e1 s2 e2 : Int) : Prop := ¬(s1 > e2 ∨ s2 > e1)

instance (s1 e1 s2 e2 : Int) : Decidable (Interval.isIntersecting s1 e1 s2 e2) := by
  unfold Interval.isIntersecting; infer_instance

/-- `BWTIntervalPair`: the pair of ranges tracked in lock-step, index 0 is the
forward search space, index 1 the reverse search space (the C++ stores them
in an array `interval[2]`; here they are two fields). -/
structure BWTIntervalPair where
  interval0 : Interval
  interval1 : Interval
deriving DecidableEq, Repr

/-- `AlignFlags`: the three orientation booleans of a candidate match. -/
structure AlignFlags where
  queryRev : Bool
  targetRev : Bool
  queryComp : Bool
deriving DecidableEq, Repr

def AlignFlags.isQueryRev (f : AlignFlags) : Bool := f.queryRev

def AlignFlags.isTargetRev (f : AlignFlags) : Bool := f.targetRev

def AlignFlags.isQueryComp (f : AlignFlags) : Bool := f.queryComp

/-- Modelled from the spec: the derivation of isReverseComplement from the
three flag bits lives in a header that is not among the given source files;
the spec only states that it is derived from the flags.  The
query-complemented bit is used here; every claim below depends only on the
value being copied verbatim, or on its value at all-false flags. -/
def AlignFlags.isReverseComplement (f : AlignFlags) : Bool := f.queryComp

/-- `SeqCoord` over one read: a closed 0-based range `[start, stop]` on a read
of length `seqlen` (the C++ field named end is called stop here). -/
structure SeqCoord where
  start : Int
  stop : Int
  seqlen : Int
deriving DecidableEq, Repr

/-- Modelled from the spec: SeqCoord.cpp is not among the given source files.
flip maps the range to the complementary orientation,
`(newStart, newEnd) = (totalLength-1-end, totalLength-1-start)`. -/
def SeqCoord.flip (c : SeqCoord) : SeqCoord :=
  ⟨c.seqlen - 1 - c.stop, c.seqlen - 1 - c.start, c.seqlen⟩

/-- Modelled from the spec: SeqCoord.cpp is not among the given source files.
isContained holds when the range spans the whole read. -/
def SeqCoord.isContained (c : SeqCoord) : Prop := c.start = 0 ∧ c.stop = c.seqlen - 1

instance (c : SeqCoord) : Decidable c.isContained := by
  unfold SeqCoord.isContained; infer_instance

/-- `OverlapBlock`: one candidate match.  The search history is irrelevant to
every property proved here (it only feeds the overlap-string extraction,
which is kept abstract), so it is not represented. -/
structure OverlapBlock where
  ranges : BWTIntervalPair
  overlapLen : Int
  numDiff : Int
  flags : AlignFlags
deriving DecidableEq, Repr

/-- Left endpoint of a block's index-0 range. -/
def OverlapBlock.l0 (b : OverlapBlock) : Int := b.ranges.interval0.lower

/-- Right endpoint of a block's index-0 range. -/
def OverlapBlock.u0 (b : OverlapBlock) : Int := b.ranges.interval0.upper

/-- `Overlap`: a normalized pairwise match record. -/
structure Overlap where
  queryId : String
  queryCoord : SeqCoord
  targetId : String
  targetCoord : SeqCoord
  isRC : Bool
  numDiff : Int
deriving DecidableEq, Repr

/-- Modelled from the spec: the comparator OverlapBlock.sortIntervalLeft is
declared in OverlapBlock.h, which is not among the given source files; the
spec says blocks are ordered by `ranges.interval[0].lower` ascending with
ties broken by `upper` ascending.  This is the strict form of that order. -/
def blockLT (a b : OverlapBlock) : Prop :=
  a.l0 < b.l0 ∨ (a.l0 = b.l0 ∧ a.u0 < b.u0)

instance (a b : OverlapBlock) : Decidable (blockLT a b) := by
  unfold blockLT; infer_instance

/-- The non-strict companion of blockLT; a stable sort with the comparator
blockLT produces a list sorted under blockLE. -/
def blockLE (a b : OverlapBlock) : Prop := ¬ blockLT b a

instance (a b : OverlapBlock) : Decidable (blockLE a b) := by
  unfold blockLE; infer_instance

instance : IsTotal OverlapBlock blockLE :=
  ⟨fun a b => by unfold blockLE blockLT OverlapBlock.l0 OverlapBlock.u0; omega⟩

instance : IsTrans OverlapBlock blockLE :=
  ⟨fun a b c => by unfold blockLE blockLT OverlapBlock.l0 OverlapBlock.u0; omega⟩

/-- The list sort applied by the resolver, `pList->sort(OverlapBlock::sortIntervalLeft)`:
a stable comparison sort under the left-coordinate order. -/
def sortBlocks (l : List OverlapBlock) : List OverlapBlock :=
  List.insertionSort blockLE l

/-- The left-hand split of resolveOverlap: the part of the lower block strictly
below the higher block.  The index-1 range is contracted from its original
lower bound by the width of the new index-0 range, exactly as in the source. -/
def leftSplit (L H : OverlapBlock) : OverlapBlock :=
  let i0 : Interval := ⟨L.ranges.interval0.lower, H.ranges.interval0.lower - 1⟩
  let diff : Int := i0.upper - i0.lower
  let i1 : Interval := ⟨L.ranges.interval1.lower, L.ranges.interval1.lower + diff⟩
  { L with ranges := ⟨i0, i1⟩ }

/-- The right-hand split of resolveOverlap: the part of the lower block strictly
above the higher block.  The index-1 range is contracted from its original
upper bound by the width of the new index-0 range, exactly as in the source. -/
def rightSplit (L H : OverlapBlock) : OverlapBlock :=
  let i0 : Interval := ⟨H.ranges.interval0.upper + 1, L.ranges.interval0.upper⟩
  let diff : Int := i0.upper - i0.lower
  let i1 : Interval := ⟨L.ranges.interval1.upper - diff, L.ranges.interval1.upper⟩
  { L with ranges := ⟨i0, i1⟩ }

/-- The three assertions the source checks after each split: equal sizes of
the two ranges and validity of both. -/
def splitChecks (b : OverlapBlock) : Prop :=
  b.ranges.interval0.size = b.ranges.interval1.size ∧
    b.ranges.interval0.isValid ∧ b.ranges.interval1.isValid

instance (b : OverlapBlock) : Decidable (splitChecks b) := by
  unfold splitChecks; infer_instance

/-- The block designated pHigher by resolveOverlap. -/
def higherOf (A B : OverlapBlock) : OverlapBlock :=
  if A.overlapLen > B.overlapLen then A else B

/-- The block designated pLower by resolveOverlap. -/
def lowerOf (A B : OverlapBlock) : OverlapBlock :=
  if A.overlapLen > B.overlapLen then B else A

/-- resolveOverlap from OverlapBlock.cpp.  none models a fatal assertion:
either equal-length blocks with different index-0 coordinates, or a split
fragment failing the size/validity assertions. -/
def resolveOverlap (A B : OverlapBlock) : Option (List OverlapBlock) :=
  if A.overlapLen = B.overlapLen then
    if A.ranges.interval0.lower = B.ranges.interval0.lower ∧
        A.ranges.interval0.upper = B.ranges.interval0.upper then
      some [A]
    else
      none
  else
    let H := higherOf A B
    let L := lowerOf A B
    let afterLeft : Option (List OverlapBlock) :=
      if L.ranges.interval0.lower < H.ranges.interval0.lower then
        let s := leftSplit L H
        if splitChecks s then some [H, s] else none
      else some [H]
    afterLeft.bind fun acc =>
      if L.ranges.interval0.upper > H.ranges.interval0.upper then
        let s := rightSplit L H
        if splitChecks s then some (sortBlocks (acc ++ [s])) else none
      else some (sortBlocks acc)

/-- partitionBlockList from OverlapBlock.cpp, as a pure split of the complete
list: first component the proper-overlap list, second the containment list,
each receiving blocks in input order (the C++ splices nodes onto the tails of
the two output lists, emptying the input). -/
def partitionBlockList (readLen : Int) : List OverlapBlock → List OverlapBlock × List OverlapBlock
  | [] => ([], [])
  | b :: rest =>
    let p := partitionBlockList readLen rest
    if b.overlapLen = readLen then (p.1, b :: p.2) else (b :: p.1, p.2)

/-- OverlapBlock::toOverlap from OverlapBlock.cpp. -/
def OverlapBlock.toOverlap (b : OverlapBlock) (queryID targetID : String)
    (queryLen targetLen : Int) : Overlap :=
  let s1 := queryLen - b.overlapLen
  let e1 := s1 + b.overlapLen - 1
  let sc1 : SeqCoord := ⟨s1, e1, queryLen⟩
  let s2 : Int := 0
  let e2 := s2 + b.overlapLen - 1
  let sc2 : SeqCoord := ⟨s2, e2, targetLen⟩
  let sc1f := if b.flags.isQueryRev then sc1.flip else sc1
  let sc2f := if b.flags.isTargetRev then sc2.flip else sc2
  ⟨queryID, sc1f, targetID, sc2f, b.flags.isReverseComplement, b.numDiff⟩

/-- makeIdxString from OverlapBlock.cpp: decimal rendering of a read index. -/
def makeIdxString (idx : Int) : String := toString idx

/-- Stable merge of two lists ordered by the left-coordinate comparator, as
performed by `pList->merge(resolvedList, OverlapBlock::sortIntervalLeft)`:
an element of the second list is inserted before an element of the first only
when it is strictly smaller.  Written with an explicit fuel argument (first
parameter) so that the recursion is structural; mergeBlocks below supplies
enough fuel for the recursion to always run to completion. -/
def mergeFuel : Nat → List OverlapBlock → List OverlapBlock → List OverlapBlock
  | 0, xs, ys => xs ++ ys
  | _ + 1, [], ys => ys
  | _ + 1, x :: xs, [] => x :: xs
  | n + 1, x :: xs, y :: ys =>
    if blockLT y x then y :: mergeFuel n (x :: xs) ys
    else x :: mergeFuel n xs (y :: ys)

/-- The merge step of removeSubMaximalBlocks. -/
def mergeBlocks (xs ys : List OverlapBlock) : List OverlapBlock :=
  mergeFuel (xs.length + ys.length) xs ys

/-- Removal of the two adjacent list nodes `iter` (at index p) and `next`
(at index p+1), as done by the two `pList->erase` calls. -/
def eraseTwoAt (l : List OverlapBlock) (p : Nat) : List OverlapBlock :=
  l.take p ++ l.drop (p + 2)

/-- Outcome of the removeSubMaximalBlocks loop: either a fatal assertion
inside resolveOverlap, or the final list. -/
inductive RsmResult where
  | fatal : RsmResult
  | done : List OverlapBlock → RsmResult
deriving DecidableEq, Repr

/-- The scanning loop of removeSubMaximalBlocks: p is the index of the
iterator; when the two adjacent blocks at p and p+1 intersect on index 0 they
are erased, the output of resolveOverlap is merged back in, and the scan
restarts from the head; otherwise the iterator advances.  The loop exits,
returning the list, when the iterator or its successor reaches the end.
The fuel argument makes the recursion structural; none means fuel ran out. -/
def rsmAux : Nat → List OverlapBlock → Nat → Option RsmResult
  | 0, _, _ => none
  | fuel + 1, l, p =>
    if h : p + 1 < l.length then
      if Interval.isIntersecting (l[p].l0) (l[p].u0) (l[p + 1].l0) (l[p + 1].u0) then
        match resolveOverlap l[p] l[p + 1] with
        | none => some RsmResult.fatal
        | some res => rsmAux fuel (mergeBlocks (eraseTwoAt l p) res) 0
      else
        rsmAux fuel l (p + 1)
    else
      some (RsmResult.done l)

/-- removeSubMaximalBlocks from OverlapBlock.cpp: sort by left coordinate,
then run the scanning loop from the head. -/
def removeSubMaximalBlocks (fuel : Nat) (l : List OverlapBlock) : Option RsmResult :=
  rsmAux fuel (sortBlocks l) 0

/-- The query coordinate computed for a block inside blockListToMultiOverlap:
the suffix of the anchor read of length overlapLen, flipped when the block's
query-reversed flag is set. -/
def queryCoordOfBlock (b : OverlapBlock) (readLen : Int) : SeqCoord :=
  let s1 := readLen - b.overlapLen
  let sc1 : SeqCoord := ⟨s1, s1 + b.overlapLen - 1, readLen⟩
  if b.flags.isQueryRev then sc1.flip else sc1

/-- The target coordinate computed for a block inside blockListToMultiOverlap:
the prefix of the extracted overlap string of length overlapLen, flipped when
the block's target-reversed flag is set. -/
def targetCoordOfBlock (b : OverlapBlock) (targetLen : Int) : SeqCoord :=
  let sc2 : SeqCoord := ⟨0, b.overlapLen - 1, targetLen⟩
  if b.flags.isTargetRev then sc2.flip else sc2

/-- The read indices enumerated by the inner loop of blockListToMultiOverlap:
every integer i with `interval[0].lower ≤ i ≤ interval[0].upper`. -/
def blockIdxList (b : OverlapBlock) : List Int :=
  (List.range (b.u0 - b.l0 + 1).toNat).map (fun k : Nat => b.l0 + (k : Int))

/-- The (string, Overlap) entries contributed by one block in
blockListToMultiOverlap: none when the post-flip query coordinate is a full
containment, otherwise one entry per read index in the block's index-0 range,
with the stringified index as target id and isRC hard-coded to false.
ovlStr abstracts OverlapBlock::getOverlapString, whose search-history
transform is outside the given sources; only its length enters the record. -/
def blockEntries (ovlStr : OverlapBlock → String) (readIdx : String) (readLen : Int)
    (b : OverlapBlock) : List (String × Overlap) :=
  let ostr := ovlStr b
  let sc1 := queryCoordOfBlock b readLen
  let sc2 := targetCoordOfBlock b (ostr.length : Int)
  if sc1.isContained then []
  else (blockIdxList b).map fun i => (ostr, ⟨readIdx, sc1, makeIdxString i, sc2, false, -1⟩)

/-- blockListToMultiOverlap (the common body of the versions in
OverlapBlock.cpp and ErrorCorrectProcess.cpp): the MultiOverlap is modelled
by its ordered list of (aligned string, Overlap) pairs. -/
def blockListToMultiOverlap (ovlStr : OverlapBlock → String) (readIdx : String)
    (readLen : Int) : List OverlapBlock → List (String × Overlap)
  | [] => []
  | b :: rest =>
    blockEntries ovlStr readIdx readLen b ++ blockListToMultiOverlap ovlStr readIdx readLen rest

/-- Modelled from the spec: the status enum of the error-correction result
(its header is not among the given source files); the spec names the two
values CORRECTED and NOT_CORRECTED. -/
inductive ECFlag where
  | ECF_CORRECTED : ECFlag
  | ECF_NOTCORRECTED : ECFlag
deriving DecidableEq, Repr

/-- The result record produced by ErrorCorrectProcess::process. -/
structure ErrorCorrectResult where
  correctSequence : String
  flag : ECFlag
deriving DecidableEq, Repr

/-- ErrorCorrectProcess::process from ErrorCorrectProcess.cpp.  The external
collaborators are passed as functions: overlapRead (the overlapper producing
the block list), calculateConsensusFromPartition (MultiOverlap consensus,
whose implementation file is not among the given sources), and ovlStr (the
search-history string extraction).  The read is represented by its sequence. -/
def ErrorCorrectProcess.process
    (overlapRead : String → List OverlapBlock)
    (calculateConsensusFromPartition : String → List (String × Overlap) → String)
    (ovlStr : OverlapBlock → String)
    (readSeq : String) : ErrorCorrectResult :=
  let blockList := overlapRead readSeq
  let mo := blockListToMultiOverlap ovlStr (makeIdxString (-1)) (readSeq.length : Int) blockList
  { correctSequence := calculateConsensusFromPartition readSeq mo,
    flag := ECFlag.ECF_CORRECTED }

/-- One pileup observation: a base and its recorded log-probability value.
The double log-probabilities of the source are modelled symbolically by Int;
the transcendental operations applied to them are passed in as function
parameters, which keeps the shape of the arithmetic while staying exact. -/
structure PUElem where
  base : Char
  lp : Int
deriving DecidableEq, Repr

/-- Modelled from the spec: Alphabet.h is not among the given source files;
the DNA alphabet iterated by calculateSimpleAlphaProb has the 4 bases. -/
def DNA_ALPHABET : List Char := ['A', 'C', 'G', 'T']

/-- The inner accumulation of Pileup::calculateSimpleAlphaProb exactly as
written in the source: one term per observation, but every term reads the
log-probability of the element at FIXED index 1 (the source writes
m_data[1].lp where the loop variable shadows the outer i), so the result is
none when the pileup has exactly one element (out-of-bounds read).
g stands for the map x to log(1 - exp(x)) applied in the matching branch. -/
def codeBasePosterior (g : Int → Int) (data : List PUElem) (b : Char) : Option Int :=
  data.foldl
    (fun acc e =>
      acc.bind fun a =>
        (data[1]?).map fun e1 =>
          a + if e.base = b then g e1.lp else e1.lp)
    (some 0)

/-- Pileup::calculateSimpleAlphaProb from Pileup.cpp: per-base posteriors via
codeBasePosterior, then normalization by the log of the summed exponentials.
expf and logf stand for exp and log on the symbolic log-probability values. -/
def calculateSimpleAlphaProb (g expf logf : Int → Int) (data : List PUElem) :
    Option (List (Char × Int)) :=
  (DNA_ALPHABET.mapM fun b => (codeBasePosterior g data b).map fun p => (b, p)).map
    fun ap =>
      let marginal := logf ((ap.map fun e => expf e.2).sum)
      ap.map fun e => (e.1, e.2 - marginal)

/-- Modelled from the spec: the per-base accumulation the specification
describes for the probabilistic posterior, which the source file does not
implement correctly.  Observation i contributes log(1 - exp(lp_i)) (here
g lp_i) when it matches the candidate base, and otherwise its own error
probability split across the remaining symbols (here split lp_i). -/
def specBasePosterior (g split : Int → Int) (data : List PUElem) (b : Char) : Int :=
  data.foldl (fun a e => a + if e.base = b then g e.lp else split e.lp) 0

/-- Membership of a read index in a block's index-0 range. -/
def inBlock (b : OverlapBlock) (x : Int) : Prop := b.l0 ≤ x ∧ x ≤ b.u0

/-- A read index is covered by a block list when some block's index-0 range
contains it. -/
def covered (l : List OverlapBlock) (x : Int) : Prop := ∃ b, b ∈ l ∧ inBlock b x

/-- Two blocks whose index-0 ranges share no read index. -/
def disjointRanges (a b : OverlapBlock) : Prop := ∀ x : Int, ¬(inBlock a x ∧ inBlock b x)

/-- Number of read indices in a block's index-0 range. -/
def blockSize0 (b : OverlapBlock) : Nat := (b.u0 - b.l0 + 1).toNat

/-- Total number of read indices over a block list, counted with multiplicity. -/
def totalSize (l : List OverlapBlock) : Nat := (l.map blockSize0).sum

/-- Convenience constructor for concrete blocks in the witnesses: index-0
range [l0,u0], index-1 range [l1,u1], given overlap length, no differences,
all orientation flags clear. -/
def mkBlock (l0 u0 l1 u1 ol : Int) : OverlapBlock :=
  ⟨⟨⟨l0, u0⟩, ⟨l1, u1⟩⟩, ol, 0, ⟨false, false, false⟩⟩

/-- The list resolveOverlap assembles before its final sort in the
distinct-length case: the higher block verbatim, then the fragments of the
lower block that survive each guard. -/
def coreList (L H : OverlapBlock) : List OverlapBlock :=
  H :: ((if L.ranges.interval0.lower < H.ranges.interval0.lower
         then [leftSplit L H] else []) ++
        (if L.ranges.interval0.upper > H.ranges.interval0.upper
         then [rightSplit L H] else []))

theorem leftSplit_l0 (L H : OverlapBlock) : (leftSplit L H).l0 = L.l0 := rfl

theorem leftSplit_u0 (L H : OverlapBlock) :
    (leftSplit L H).u0 = H.ranges.interval0.lower - 1 := rfl

theorem rightSplit_l0 (L H : OverlapBlock) :
    (rightSplit L H).l0 = H.ranges.interval0.upper + 1 := rfl

theorem rightSplit_u0 (L H : OverlapBlock) : (rightSplit L H).u0 = L.u0 := rfl

/-- The left fragment always satisfies the three assertions checked after the
left-hand split, as soon as the guard of that split holds. -/
theorem leftSplit_checks (L H : OverlapBlock)
    (h : L.ranges.interval0.lower < H.ranges.interval0.lower) :
    splitChecks (leftSplit L H) := by
  simp only [splitChecks, leftSplit, Interval.size, Interval.isValid]
  refine ⟨?_, by omega, by omega⟩
  split_ifs <;> omega

/-- The right fragment always satisfies the three assertions checked after the
right-hand split, as soon as the guard of that split holds. -/
theorem rightSplit_checks (L H : OverlapBlock)
    (h : L.ranges.interval0.upper > H.ranges.interval0.upper) :
    splitChecks (rightSplit L H) := by
  simp only [splitChecks, rightSplit, Interval.size, Interval.isValid]
  refine ⟨?_, by omega, by omega⟩
  split_ifs <;> omega

/-- In the distinct-length case the fragment assertions always pass, so
resolveOverlap deterministically returns the sorted core list. -/
theorem resolveOverlap_distinct (A B : OverlapBlock) (hne : A.overlapLen ≠ B.overlapLen) :
    resolveOverlap A B = some (sortBlocks (coreList (lowerOf A B) (higherOf A B))) := by
  simp only [resolveOverlap, if_neg hne, coreList]
  by_cases h1 : (lowerOf A B).ranges.interval0.lower < (higherOf A B).ranges.interval0.lower <;>
    by_cases h2 : (lowerOf A B).ranges.interval0.upper > (higherOf A B).ranges.interval0.upper
  · simp [h1, h2, leftSplit_checks _ _ h1, rightSplit_checks _ _ h2]
  · simp [h1, h2, leftSplit_checks _ _ h1]
  · simp [h1, h2, rightSplit_checks _ _ h2]
  · simp [h1, h2]

/-- Either A is the higher block and B the lower, or the other way around. -/
theorem lowerOf_higherOf_cases (A B : OverlapBlock) :
    (lowerOf A B = B ∧ higherOf A B = A) ∨ (lowerOf A B = A ∧ higherOf A B = B) := by
  unfold lowerOf higherOf
  by_cases h : A.overlapLen > B.overlapLen <;> simp [h]

/-- C5: for blocks with equal overlap lengths, resolveOverlap returns exactly
one block, A itself unchanged, when the two index-0 ranges coincide, and
fails fatally (modelled as none) when they differ. -/
theorem resolveOverlap_equal_length (A B : OverlapBlock)
    (h : A.overlapLen = B.overlapLen) :
    resolveOverlap A B =
      if A.ranges.interval0.lower = B.ranges.interval0.lower ∧
          A.ranges.interval0.upper = B.ranges.interval0.upper
      then some [A] else none := by
  simp only [resolveOverlap, if_pos h]

/-- Witness for C5: a concrete equal-length pair with coinciding index-0
ranges is deduplicated to the first block, and a concrete equal-length pair
with different index-0 ranges is fatal. -/
theorem resolveOverlap_equal_length_witness :
    resolveOverlap (mkBlock 0 5 10 15 3) (mkBlock 0 5 20 25 3) =
      (if (mkBlock 0 5 10 15 3).ranges.interval0.lower =
            (mkBlock 0 5 20 25 3).ranges.interval0.lower ∧
          (mkBlock 0 5 10 15 3).ranges.interval0.upper =
            (mkBlock 0 5 20 25 3).ranges.interval0.upper
       then some [mkBlock 0 5 10 15 3] else none) ∧
    resolveOverlap (mkBlock 0 5 10 15 3) (mkBlock 1 5 20 24 3) =
      (if (mkBlock 0 5 10 15 3).ranges.interval0.lower =
            (mkBlock 1 5 20 24 3).ranges.interval0.lower ∧
          (mkBlock 0 5 10 15 3).ranges.interval0.upper =
            (mkBlock 1 5 20 24 3).ranges.interval0.upper
       then some [mkBlock 0 5 10 15 3] else none) :=
  ⟨resolveOverlap_equal_length _ _ (by decide),
   resolveOverlap_equal_length _ _ (by decide)⟩

/-- C6: partitionBlockList sends exactly the blocks whose overlap length
equals the read length to the containment list and all others to the overlap
list, as order-preserving sublists (filters) of the input, and the two output
lengths add up to the input length (no block duplicated or dropped). -/
theorem partitionBlockList_total_split (readLen : Int) (l : List OverlapBlock) :
    (partitionBlockList readLen l).1 =
      l.filter (fun b => !decide (b.overlapLen = readLen)) ∧
    (partitionBlockList readLen l).2 =
      l.filter (fun b => decide (b.overlapLen = readLen)) ∧
    (partitionBlockList readLen l).1.length + (partitionBlockList readLen l).2.length
      = l.length := by
  induction l with
  | nil => exact ⟨rfl, rfl, rfl⟩
  | cons b rest ih =>
    obtain ⟨ih1, ih2, ih3⟩ := ih
    by_cases h : b.overlapLen = readLen
    · refine ⟨?_, ?_, ?_⟩
      · simp [partitionBlockList, h, List.filter_cons, ih1]
      · simp [partitionBlockList, h, List.filter_cons, ih2]
      · simp only [partitionBlockList, if_pos h, List.length_cons]
        omega
    · refine ⟨?_, ?_, ?_⟩
      · simp [partitionBlockList, h, List.filter_cons, ih1]
      · simp [partitionBlockList, h, List.filter_cons, ih2]
      · simp only [partitionBlockList, if_neg h, List.length_cons]
        omega

/-- C7: toOverlap derives a suffix coordinate [queryLen-overlapLen, queryLen-1]
on the query and a prefix coordinate [0, overlapLen-1] on the target, flips
the query coordinate exactly when the query-reversed flag is set and the
target coordinate exactly when the target-reversed flag is set, and copies
isReverseComplement verbatim from the flags. -/
theorem toOverlap_coords (b : OverlapBlock) (qid tid : String) (ql tl : Int)
    (h1 : 0 < b.overlapLen) (h2 : b.overlapLen ≤ ql) (h3 : b.overlapLen ≤ tl) :
    (b.toOverlap qid tid ql tl).queryCoord =
      (if b.flags.isQueryRev
       then SeqCoord.flip ⟨ql - b.overlapLen, ql - 1, ql⟩
       else ⟨ql - b.overlapLen, ql - 1, ql⟩) ∧
    (b.toOverlap qid tid ql tl).targetCoord =
      (if b.flags.isTargetRev
       then SeqCoord.flip ⟨0, b.overlapLen - 1, tl⟩
       else ⟨0, b.overlapLen - 1, tl⟩) ∧
    (b.toOverlap qid tid ql tl).isRC = b.flags.isReverseComplement ∧
    (b.toOverlap qid tid ql tl).queryId = qid ∧
    (b.toOverlap qid tid ql tl).targetId = tid := by
  have he1 : ql - b.overlapLen + b.overlapLen - 1 = ql - 1 := by omega
  have he2 : (0 : Int) + b.overlapLen - 1 = b.overlapLen - 1 := by omega
  simp [OverlapBlock.toOverlap, he1, he2]

/-- Witness for C7: the end-to-end scenario of the spec, a length-20 overlap
block on a length-50 query with no orientation flags: query coordinate
[30,49] of 50, target coordinate [0,19] of the target length, and
isReverseComplement false. -/
theorem toOverlap_coords_witness :
    ((mkBlock 0 9 0 9 20).toOverlap "R" "S" 50 40).queryCoord =
      (if (mkBlock 0 9 0 9 20).flags.isQueryRev
       then SeqCoord.flip ⟨50 - (mkBlock 0 9 0 9 20).overlapLen, 50 - 1, 50⟩
       else ⟨50 - (mkBlock 0 9 0 9 20).overlapLen, 50 - 1, 50⟩) ∧
    ((mkBlock 0 9 0 9 20).toOverlap "R" "S" 50 40).targetCoord =
      (if (mkBlock 0 9 0 9 20).flags.isTargetRev
       then SeqCoord.flip ⟨0, (mkBlock 0 9 0 9 20).overlapLen - 1, 40⟩
       else ⟨0, (mkBlock 0 9 0 9 20).overlapLen - 1, 40⟩) ∧
    ((mkBlock 0 9 0 9 20).toOverlap "R" "S" 50 40).isRC =
      (mkBlock 0 9 0 9 20).flags.isReverseComplement ∧
    ((mkBlock 0 9 0 9 20).toOverlap "R" "S" 50 40).queryId = "R" ∧
    ((mkBlock 0 9 0 9 20).toOverlap "R" "S" 50 40).targetId = "S" :=
  toOverlap_coords (mkBlock 0 9 0 9 20) "R" "S" 50 40 (by decide) (by decide) (by decide)

/-- A concrete check that the C7 witness scenario indeed lands on the
coordinates named by the spec: query [30,49] of 50, target [0,19] of 40,
isReverseComplement false. -/
theorem toOverlap_scenario_eval :
    ((mkBlock 0 9 0 9 20).toOverlap "R" "S" 50 40).queryCoord = ⟨30, 49, 50⟩ ∧
    ((mkBlock 0 9 0 9 20).toOverlap "R" "S" 50 40).targetCoord = ⟨0, 19, 40⟩ ∧
    ((mkBlock 0 9 0 9 20).toOverlap "R" "S" 50 40).isRC = false := by
  exact ⟨by decide, by decide, by decide⟩

/-- C10: ErrorCorrectProcess::process sets the result status to ECF_CORRECTED
unconditionally, whatever the overlapper, the consensus computation and the
read are; the NOT_CORRECTED status is never produced. -/
theorem process_flag_always_corrected
    (overlapRead : String → List OverlapBlock)
    (calculateConsensusFromPartition : String → List (String × Overlap) → String)
    (ovlStr : OverlapBlock → String) (readSeq : String) :
    (ErrorCorrectProcess.process overlapRead calculateConsensusFromPartition
        ovlStr readSeq).flag = ECFlag.ECF_CORRECTED := rfl

/-- C3: evaluation of the code's posterior accumulation showing the indexing
defect.  On a depth-1 pileup the computation reads past the end of the data
(modelled as none); on a depth-2 pileup the result does not depend on the
first observation's recorded log-probability, because every term of the sum
reads the element at fixed index 1, whereas the per-observation likelihood
the spec describes does depend on it. -/
theorem calculateSimpleAlphaProb_fixed_index_defect :
    calculateSimpleAlphaProb id id id [⟨'A', 0⟩] = none ∧
    codeBasePosterior id [⟨'A', 37⟩, ⟨'C', 5⟩] 'A' =
      codeBasePosterior id [⟨'A', 0⟩, ⟨'C', 5⟩] 'A' ∧
    specBasePosterior id id [⟨'A', 37⟩, ⟨'C', 5⟩] 'A' ≠
      specBasePosterior id id [⟨'A', 0⟩, ⟨'C', 5⟩] 'A' := by
  refine ⟨by decide, by decide, by decide⟩

/-- C4: for intersecting blocks of distinct overlap lengths, resolveOverlap
never hits a fatal assertion (it returns a result), each emitted fragment of
the lower block satisfies the size and validity assertions, and each
fragment's index-1 interval is anchored at the lower block's original index-1
endpoint and contracted to the width of the fragment's index-0 interval. -/
theorem resolveOverlap_fragment_invariants (A B : OverlapBlock)
    (hne : A.overlapLen ≠ B.overlapLen)
    (hint : Interval.isIntersecting A.l0 A.u0 B.l0 B.u0) :
    (∃ res, resolveOverlap A B = some res) ∧
    ((lowerOf A B).ranges.interval0.lower < (higherOf A B).ranges.interval0.lower →
      splitChecks (leftSplit (lowerOf A B) (higherOf A B)) ∧
      (leftSplit (lowerOf A B) (higherOf A B)).ranges.interval1.lower =
        (lowerOf A B).ranges.interval1.lower ∧
      (leftSplit (lowerOf A B) (higherOf A B)).ranges.interval1.size =
        (leftSplit (lowerOf A B) (higherOf A B)).ranges.interval0.size) ∧
    ((lowerOf A B).ranges.interval0.upper > (higherOf A B).ranges.interval0.upper →
      splitChecks (rightSplit (lowerOf A B) (higherOf A B)) ∧
      (rightSplit (lowerOf A B) (higherOf A B)).ranges.interval1.upper =
        (lowerOf A B).ranges.interval1.upper ∧
      (rightSplit (lowerOf A B) (higherOf A B)).ranges.interval1.size =
        (rightSplit (lowerOf A B) (higherOf A B)).ranges.interval0.size) := by
  refine ⟨⟨_, resolveOverlap_distinct A B hne⟩,
    fun h => ⟨leftSplit_checks _ _ h, rfl, ((leftSplit_checks _ _ h).1).symm⟩,
    fun h => ⟨rightSplit_checks _ _ h, rfl, ((rightSplit_checks _ _ h).1).symm⟩⟩

/-- Witness for C4: a concrete intersecting pair with distinct overlap
lengths where both splits fire. -/
theorem resolveOverlap_fragment_invariants_witness :
    (Interval.isIntersecting (mkBlock 0 5 10 15 3).l0 (mkBlock 0 5 10 15 3).u0
      (mkBlock 2 4 20 22 7).l0 (mkBlock 2 4 20 22 7).u0) ∧
    ((∃ res, resolveOverlap (mkBlock 0 5 10 15 3) (mkBlock 2 4 20 22 7) = some res) ∧
     ((lowerOf (mkBlock 0 5 10 15 3) (mkBlock 2 4 20 22 7)).ranges.interval0.lower <
        (higherOf (mkBlock 0 5 10 15 3) (mkBlock 2 4 20 22 7)).ranges.interval0.lower →
       splitChecks (leftSplit (lowerOf (mkBlock 0 5 10 15 3) (mkBlock 2 4 20 22 7))
          (higherOf (mkBlock 0 5 10 15 3) (mkBlock 2 4 20 22 7))) ∧
       (leftSplit (lowerOf (mkBlock 0 5 10 15 3) (mkBlock 2 4 20 22 7))
          (higherOf (mkBlock 0 5 10 15 3) (mkBlock 2 4 20 22 7))).ranges.interval1.lower =
         (lowerOf (mkBlock 0 5 10 15 3) (mkBlock 2 4 20 22 7)).ranges.interval1.lower ∧
       (leftSplit (lowerOf (mkBlock 0 5 10 15 3) (mkBlock 2 4 20 22 7))
          (higherOf (mkBlock 0 5 10 15 3) (mkBlock 2 4 20 22 7))).ranges.interval1.size =
         (leftSplit (lowerOf (mkBlock 0 5 10 15 3) (mkBlock 2 4 20 22 7))
          (higherOf (mkBlock 0 5 10 15 3) (mkBlock 2 4 20 22 7))).ranges.interval0.size) ∧
     ((lowerOf (mkBlock 0 5 10 15 3) (mkBlock 2 4 20 22 7)).ranges.interval0.upper >
        (higherOf (mkBlock 0 5 10 15 3) (mkBlock 2 4 20 22 7)).ranges.interval0.upper →
       splitChecks (rightSplit (lowerOf (mkBlock 0 5 10 15 3) (mkBlock 2 4 20 22 7))
          (higherOf (mkBlock 0 5 10 15 3) (mkBlock 2 4 20 22 7))) ∧
       (rightSplit (lowerOf (mkBlock 0 5 10 15 3) (mkBlock 2 4 20 22 7))
          (higherOf (mkBlock 0 5 10 15 3) (mkBlock 2 4 20 22 7))).ranges.interval1.upper =
         (lowerOf (mkBlock 0 5 10 15 3) (mkBlock 2 4 20 22 7)).ranges.interval1.upper ∧
       (rightSplit (lowerOf (mkBlock 0 5 10 15 3) (mkBlock 2 4 20 22 7))
          (higherOf (mkBlock 0 5 10 15 3) (mkBlock 2 4 20 22 7))).ranges.interval1.size =
         (rightSplit (lowerOf (mkBlock 0 5 10 15 3) (mkBlock 2 4 20 22 7))
          (higherOf (mkBlock 0 5 10 15 3) (mkBlock 2 4 20 22 7))).ranges.interval0.size)) :=
  ⟨by decide, resolveOverlap_fragment_invariants _ _ (by decide) (by decide)⟩

/-- C1: when the lower block's index-0 range strictly contains the higher
block's range on both sides, resolveOverlap returns exactly the three blocks
left fragment, higher block unmodified, right fragment (in that order), with
pairwise disjoint index-0 ranges, each satisfying the interval-pair size
invariant.  The two well-formedness hypotheses on the higher block are the
data-model invariant the spec imposes on every interval pair. -/
theorem resolveOverlap_three_way (A B : OverlapBlock)
    (hne : A.overlapLen ≠ B.overlapLen)
    (hvH : (higherOf A B).ranges.interval0.isValid)
    (hsH : (higherOf A B).ranges.interval0.size = (higherOf A B).ranges.interval1.size)
    (hl : (lowerOf A B).ranges.interval0.lower < (higherOf A B).ranges.interval0.lower)
    (hu : (lowerOf A B).ranges.interval0.upper > (higherOf A B).ranges.interval0.upper) :
    resolveOverlap A B = some
      [leftSplit (lowerOf A B) (higherOf A B), higherOf A B,
       rightSplit (lowerOf A B) (higherOf A B)] ∧
    List.Pairwise disjointRanges
      [leftSplit (lowerOf A B) (higherOf A B), higherOf A B,
       rightSplit (lowerOf A B) (higherOf A B)] ∧
    ∀ c ∈ [leftSplit (lowerOf A B) (higherOf A B), higherOf A B,
       rightSplit (lowerOf A B) (higherOf A B)],
      c.ranges.interval0.size = c.ranges.interval1.size := by
  set L := lowerOf A B with hLdef
  set H := higherOf A B with hHdef
  have hv : H.ranges.interval0.lower ≤ H.ranges.interval0.upper := hvH
  have h1 : blockLE (leftSplit L H) (rightSplit L H) := by
    unfold blockLE blockLT OverlapBlock.l0 OverlapBlock.u0 leftSplit rightSplit
    dsimp only
    omega
  have h2 : ¬ blockLE H (leftSplit L H) := by
    unfold blockLE blockLT OverlapBlock.l0 OverlapBlock.u0 leftSplit
    dsimp only
    omega
  have h3 : blockLE H (rightSplit L H) := by
    unfold blockLE blockLT OverlapBlock.l0 OverlapBlock.u0 rightSplit
    dsimp only
    omega
  refine ⟨?_, ?_, ?_⟩
  · have heq := resolveOverlap_distinct A B hne
    rw [coreList, if_pos hl, if_pos hu] at heq
    rw [heq]
    simp [sortBlocks, List.insertionSort, List.orderedInsert, h1, h2, h3]
  · refine List.Pairwise.cons ?_ (List.Pairwise.cons ?_ (List.pairwise_singleton _ _))
    · intro c hc
      rcases List.mem_cons.mp hc with rfl | hc
      · intro x hx
        rcases hx with ⟨⟨hx1, hx2⟩, hx3, hx4⟩
        simp only [leftSplit, OverlapBlock.l0, OverlapBlock.u0] at hx1 hx2 hx3 hx4
        omega
      · rcases List.mem_singleton.mp hc with rfl
        intro x hx
        rcases hx with ⟨⟨hx1, hx2⟩, hx3, hx4⟩
        simp only [leftSplit, rightSplit, OverlapBlock.l0, OverlapBlock.u0] at hx1 hx2 hx3 hx4
        omega
    · intro c hc
      rcases List.mem_singleton.mp hc with rfl
      intro x hx
      rcases hx with ⟨⟨hx1, hx2⟩, hx3, hx4⟩
      simp only [rightSplit, OverlapBlock.l0, OverlapBlock.u0] at hx1 hx2 hx3 hx4
      omega
  · intro c hc
    rcases List.mem_cons.mp hc with rfl | hc
    · exact (leftSplit_checks L H hl).1
    rcases List.mem_cons.mp hc with rfl | hc
    · exact hsH
    rcases List.mem_singleton.mp hc with rfl
    exact (rightSplit_checks L H hu).1

/-- Witness for C1: the pair of blocks [0,5] (overlap length 3) and [2,4]
(overlap length 7), where the shorter-overlap block strictly contains the
longer-overlap block on both sides. -/
theorem resolveOverlap_three_way_witness :
    resolveOverlap (mkBlock 0 5 10 15 3) (mkBlock 2 4 20 22 7) = some
      [leftSplit (lowerOf (mkBlock 0 5 10 15 3) (mkBlock 2 4 20 22 7))
         (higherOf (mkBlock 0 5 10 15 3) (mkBlock 2 4 20 22 7)),
       higherOf (mkBlock 0 5 10 15 3) (mkBlock 2 4 20 22 7),
       rightSplit (lowerOf (mkBlock 0 5 10 15 3) (mkBlock 2 4 20 22 7))
         (higherOf (mkBlock 0 5 10 15 3) (mkBlock 2 4 20 22 7))] ∧
    List.Pairwise disjointRanges
      [leftSplit (lowerOf (mkBlock 0 5 10 15 3) (mkBlock 2 4 20 22 7))
         (higherOf (mkBlock 0 5 10 15 3) (mkBlock 2 4 20 22 7)),
       higherOf (mkBlock 0 5 10 15 3) (mkBlock 2 4 20 22 7),
       rightSplit (lowerOf (mkBlock 0 5 10 15 3) (mkBlock 2 4 20 22 7))
         (higherOf (mkBlock 0 5 10 15 3) (mkBlock 2 4 20 22 7))] ∧
    ∀ c ∈ [leftSplit (lowerOf (mkBlock 0 5 10 15 3) (mkBlock 2 4 20 22 7))
         (higherOf (mkBlock 0 5 10 15 3) (mkBlock 2 4 20 22 7)),
       higherOf (mkBlock 0 5 10 15 3) (mkBlock 2 4 20 22 7),
       rightSplit (lowerOf (mkBlock 0 5 10 15 3) (mkBlock 2 4 20 22 7))
         (higherOf (mkBlock 0 5 10 15 3) (mkBlock 2 4 20 22 7))],
      c.ranges.interval0.size = c.ranges.interval1.size :=
  resolveOverlap_three_way (mkBlock 0 5 10 15 3) (mkBlock 2 4 20 22 7)
    (by decide) (by decide) (by decide) (by decide) (by decide)

theorem covered_nil (x : Int) : covered [] x ↔ False := by
  constructor
  · rintro ⟨b, hb, -⟩
    exact absurd hb (List.not_mem_nil b)
  · exact False.elim

theorem covered_cons (b : OverlapBlock) (l : List OverlapBlock) (x : Int) :
    covered (b :: l) x ↔ inBlock b x ∨ covered l x := by
  unfold covered
  constructor
  · rintro ⟨c, hc, hx⟩
    rcases List.mem_cons.mp hc with rfl | hc
    · exact Or.inl hx
    · exact Or.inr ⟨c, hc, hx⟩
  · rintro (hx | ⟨c, hc, hx⟩)
    · exact ⟨b, List.mem_cons_self b l, hx⟩
    · exact ⟨c, List.mem_cons_of_mem b hc, hx⟩

theorem covered_append (u v : List OverlapBlock) (x : Int) :
    covered (u ++ v) x ↔ covered u x ∨ covered v x := by
  unfold covered
  constructor
  · rintro ⟨b, hb, hx⟩
    rcases List.mem_append.mp hb with h | h
    · exact Or.inl ⟨b, h, hx⟩
    · exact Or.inr ⟨b, h, hx⟩
  · rintro (⟨b, hb, hx⟩ | ⟨b, hb, hx⟩)
    · exact ⟨b, List.mem_append.mpr (Or.inl hb), hx⟩
    · exact ⟨b, List.mem_append.mpr (Or.inr hb), hx⟩

theorem covered_of_perm {l1 l2 : List OverlapBlock} (h : l1.Perm l2) (x : Int) :
    covered l1 x ↔ covered l2 x := by
  unfold covered
  constructor <;> rintro ⟨b, hb, hx⟩
  · exact ⟨b, h.mem_iff.mp hb, hx⟩
  · exact ⟨b, h.mem_iff.mpr hb, hx⟩

theorem totalSize_of_perm {l1 l2 : List OverlapBlock} (h : l1.Perm l2) :
    totalSize l1 = totalSize l2 :=
  List.Perm.sum_eq (h.map blockSize0)

theorem blockSize0_pos (b : OverlapBlock) (h : b.ranges.interval0.isValid) :
    1 ≤ blockSize0 b := by
  unfold Interval.isValid at h
  unfold blockSize0 OverlapBlock.l0 OverlapBlock.u0
  omega

theorem sortBlocks_perm (l : List OverlapBlock) : (sortBlocks l).Perm l :=
  List.perm_insertionSort _ _

theorem sortBlocks_sorted (l : List OverlapBlock) : (sortBlocks l).Pairwise blockLE :=
  List.sorted_insertionSort _ _

theorem mem_sortBlocks {c : OverlapBlock} {l : List OverlapBlock} :
    c ∈ sortBlocks l ↔ c ∈ l :=
  (sortBlocks_perm l).mem_iff

theorem mergeFuel_perm (n : Nat) : ∀ xs ys : List OverlapBlock,
    xs.length + ys.length ≤ n → (mergeFuel n xs ys).Perm (xs ++ ys) := by
  induction n with
  | zero => intro xs ys _; exact List.Perm.refl _
  | succ n ih =>
    intro xs ys h
    match xs, ys with
    | [], ys => simp [mergeFuel]
    | x :: xs, [] => simp [mergeFuel]
    | x :: xs, y :: ys =>
      rw [mergeFuel]
      split_ifs with hc
      · have hih := ih (x :: xs) ys (by simp at h ⊢; omega)
        exact (hih.cons y).trans List.perm_middle.symm
      · have hih := ih xs (y :: ys) (by simp at h ⊢; omega)
        exact hih.cons x

theorem mergeBlocks_perm (xs ys : List OverlapBlock) :
    (mergeBlocks xs ys).Perm (xs ++ ys) :=
  mergeFuel_perm _ xs ys le_rfl

theorem mergeFuel_sorted (n : Nat) : ∀ xs ys : List OverlapBlock,
    xs.length + ys.length ≤ n → xs.Pairwise blockLE → ys.Pairwise blockLE →
    (mergeFuel n xs ys).Pairwise blockLE := by
  induction n with
  | zero =>
    intro xs ys h _ _
    have hx : xs = [] := List.length_eq_zero.mp (by omega)
    have hy : ys = [] := List.length_eq_zero.mp (by omega)
    subst hx; subst hy
    exact List.Pairwise.nil
  | succ n ih =>
    intro xs ys h hx hy
    match xs, ys with
    | [], ys => simpa [mergeFuel] using hy
    | x :: xs, [] => simpa [mergeFuel] using hx
    | x :: xs, y :: ys =>
      rw [mergeFuel]
      rcases List.pairwise_cons.mp hx with ⟨hxall, hxtail⟩
      rcases List.pairwise_cons.mp hy with ⟨hyall, hytail⟩
      have hlen1 : (x :: xs).length + ys.length ≤ n := by simp at h ⊢; omega
      have hlen2 : xs.length + (y :: ys).length ≤ n := by simp at h ⊢; omega
      split_ifs with hc
      · refine List.pairwise_cons.mpr ⟨?_, ih (x :: xs) ys hlen1 hx hytail⟩
        intro z hz
        have hyx : blockLE y x := by
          unfold blockLE blockLT at hc ⊢
          unfold OverlapBlock.l0 OverlapBlock.u0 at hc ⊢
          omega
        rcases List.mem_append.mp ((mergeFuel_perm n (x :: xs) ys hlen1).mem_iff.mp hz) with
          hz1 | hz2
        · rcases List.mem_cons.mp hz1 with rfl | hz1
          · exact hyx
          · exact IsTrans.trans _ _ _ hyx (hxall z hz1)
        · exact hyall z hz2
      · have hxy : blockLE x y := hc
        refine List.pairwise_cons.mpr ⟨?_, ih xs (y :: ys) hlen2 hxtail hy⟩
        intro z hz
        rcases List.mem_append.mp ((mergeFuel_perm n xs (y :: ys) hlen2).mem_iff.mp hz) with
          hz1 | hz2
        · exact hxall z hz1
        · rcases List.mem_cons.mp hz2 with rfl | hz2
          · exact hxy
          · exact IsTrans.trans _ _ _ hxy (hyall z hz2)

theorem mergeBlocks_sorted {xs ys : List OverlapBlock}
    (hx : xs.Pairwise blockLE) (hy : ys.Pairwise blockLE) :
    (mergeBlocks xs ys).Pairwise blockLE :=
  mergeFuel_sorted _ xs ys le_rfl hx hy

theorem eraseTwo_perm (l : List OverlapBlock) (p : Nat) (h : p + 1 < l.length) :
    l.Perm (l[p] :: l[p + 1] :: eraseTwoAt l p) := by
  unfold eraseTwoAt
  conv_lhs => rw [← List.take_append_drop p l]
  rw [List.drop_eq_getElem_cons (show p < l.length by omega),
    List.drop_eq_getElem_cons (show p + 1 < l.length from h)]
  have h1 : (l.take p ++ l[p] :: (l[p + 1] :: l.drop (p + 2))).Perm
      (l[p] :: (l.take p ++ (l[p + 1] :: l.drop (p + 2)))) := List.perm_middle
  have h2 : (l.take p ++ (l[p + 1] :: l.drop (p + 2))).Perm
      (l[p + 1] :: (l.take p ++ l.drop (p + 2))) := List.perm_middle
  exact h1.trans (h2.cons _)

theorem eraseTwo_sublist (l : List OverlapBlock) (p : Nat) :
    (eraseTwoAt l p).Sublist l := by
  unfold eraseTwoAt
  have hdrop : (l.drop (p + 2)).Sublist (l.drop p) := by
    have : l.drop (p + 2) = (l.drop p).drop 2 := by
      rw [List.drop_drop]
    rw [this]
    exact List.drop_sublist 2 (l.drop p)
  calc (l.take p ++ l.drop (p + 2)).Sublist (l.take p ++ l.drop p) :=
        hdrop.append_left (l.take p)
    _ = l := List.take_append_drop p l

/-- The intersection test is symmetric in the two ranges. -/
theorem isIntersecting_symm {s1 e1 s2 e2 : Int}
    (h : Interval.isIntersecting s1 e1 s2 e2) : Interval.isIntersecting s2 e2 s1 e1 := by
  unfold Interval.isIntersecting at h ⊢
  omega

/-- Coverage of the pre-sort output of the distinct-length case: exactly the
read indices of the two input blocks, provided the two blocks intersect. -/
theorem coreList_covered (L H : OverlapBlock)
    (hint : Interval.isIntersecting L.l0 L.u0 H.l0 H.u0) (x : Int) :
    covered (coreList L H) x ↔ inBlock L x ∨ inBlock H x := by
  unfold Interval.isIntersecting at hint
  unfold OverlapBlock.l0 OverlapBlock.u0 at hint
  unfold coreList
  by_cases h1 : L.ranges.interval0.lower < H.ranges.interval0.lower <;>
    by_cases h2 : L.ranges.interval0.upper > H.ranges.interval0.upper
  · rw [if_pos h1, if_pos h2]
    simp only [covered_cons, covered_append, covered_nil, or_false,
      inBlock, leftSplit, rightSplit, OverlapBlock.l0, OverlapBlock.u0]
    omega
  · rw [if_pos h1, if_neg h2]
    simp only [covered_cons, covered_append, covered_nil, or_false,
      inBlock, leftSplit, OverlapBlock.l0, OverlapBlock.u0]
    omega
  · rw [if_neg h1, if_pos h2]
    simp only [covered_cons, covered_append, covered_nil, or_false, false_or,
      List.nil_append, inBlock, rightSplit, OverlapBlock.l0, OverlapBlock.u0]
    omega
  · rw [if_neg h1, if_neg h2]
    simp only [covered_cons, covered_append, covered_nil, or_false,
      List.nil_append, inBlock, OverlapBlock.l0, OverlapBlock.u0]
    omega

/-- Validity of every index-0 range in the pre-sort output of the
distinct-length case. -/
theorem coreList_valid (L H : OverlapBlock)
    (hvL : L.ranges.interval0.isValid) (hvH : H.ranges.interval0.isValid) :
    ∀ c ∈ coreList L H, c.ranges.interval0.isValid := by
  intro c hc
  unfold coreList at hc
  rcases List.mem_cons.mp hc with rfl | hc
  · exact hvH
  rcases List.mem_append.mp hc with hc | hc
  · by_cases h1 : L.ranges.interval0.lower < H.ranges.interval0.lower
    · rw [if_pos h1] at hc
      rcases List.mem_singleton.mp hc with rfl
      exact (leftSplit_checks L H h1).2.1
    · rw [if_neg h1] at hc
      exact absurd hc (List.not_mem_nil c)
  · by_cases h2 : L.ranges.interval0.upper > H.ranges.interval0.upper
    · rw [if_pos h2] at hc
      rcases List.mem_singleton.mp hc with rfl
      exact (rightSplit_checks L H h2).2.1
    · rw [if_neg h2] at hc
      exact absurd hc (List.not_mem_nil c)

/-- The pre-sort output of the distinct-length case covers strictly fewer
read indices (with multiplicity) than the two intersecting input blocks. -/
theorem coreList_totalSize (L H : OverlapBlock)
    (hvL : L.ranges.interval0.isValid) (hvH : H.ranges.interval0.isValid)
    (hint : Interval.isIntersecting L.l0 L.u0 H.l0 H.u0) :
    totalSize (coreList L H) < blockSize0 L + blockSize0 H := by
  unfold Interval.isIntersecting at hint
  unfold Interval.isValid at hvL hvH
  unfold OverlapBlock.l0 OverlapBlock.u0 at hint
  unfold coreList
  by_cases h1 : L.ranges.interval0.lower < H.ranges.interval0.lower <;>
    by_cases h2 : L.ranges.interval0.upper > H.ranges.interval0.upper
  · rw [if_pos h1, if_pos h2]
    simp only [totalSize, List.map_cons, List.map_append, List.map_nil, List.sum_cons,
      List.sum_append, List.sum_nil, blockSize0, leftSplit, rightSplit,
      OverlapBlock.l0, OverlapBlock.u0]
    omega
  · rw [if_pos h1, if_neg h2]
    simp only [totalSize, List.map_cons, List.map_append, List.map_nil, List.sum_cons,
      List.sum_append, List.sum_nil, blockSize0, leftSplit,
      OverlapBlock.l0, OverlapBlock.u0]
    omega
  · rw [if_neg h1, if_pos h2]
    simp only [totalSize, List.map_cons, List.map_append, List.map_nil, List.sum_cons,
      List.sum_append, List.sum_nil, blockSize0, rightSplit, List.nil_append,
      OverlapBlock.l0, OverlapBlock.u0]
    omega
  · rw [if_neg h1, if_neg h2]
    simp only [totalSize, List.map_cons, List.map_append, List.map_nil, List.sum_cons,
      List.sum_append, List.sum_nil, blockSize0, List.nil_append,
      OverlapBlock.l0, OverlapBlock.u0]
    omega

/-- Properties of one successful resolveOverlap call on an intersecting pair
of valid blocks: every output range is valid, the output is sorted by left
coordinate, it covers exactly the read indices of the two inputs, and it is
strictly smaller in total multiplicity. -/
theorem resolve_some_props (a b : OverlapBlock) (res : List OverlapBlock)
    (hva : a.ranges.interval0.isValid) (hvb : b.ranges.interval0.isValid)
    (hint : Interval.isIntersecting a.l0 a.u0 b.l0 b.u0)
    (hres : resolveOverlap a b = some res) :
    (∀ c ∈ res, c.ranges.interval0.isValid) ∧
    res.Pairwise blockLE ∧
    (∀ x, covered res x ↔ inBlock a x ∨ inBlock b x) ∧
    totalSize res < blockSize0 a + blockSize0 b := by
  by_cases heq : a.overlapLen = b.overlapLen
  · simp only [resolveOverlap, if_pos heq] at hres
    by_cases hr : a.ranges.interval0.lower = b.ranges.interval0.lower ∧
        a.ranges.interval0.upper = b.ranges.interval0.upper
    · rw [if_pos hr] at hres
      obtain rfl : [a] = res := Option.some.inj hres
      refine ⟨?_, List.pairwise_singleton _ _, ?_, ?_⟩
      · intro c hc
        rcases List.mem_singleton.mp hc with rfl
        exact hva
      · intro x
        obtain ⟨hr1, hr2⟩ := hr
        rw [covered_cons, covered_nil]
        unfold inBlock OverlapBlock.l0 OverlapBlock.u0
        rw [hr1, hr2]
        tauto
      · have hb1 := blockSize0_pos b hvb
        simp only [totalSize, List.map_cons, List.map_nil, List.sum_cons, List.sum_nil]
        omega
    · rw [if_neg hr] at hres
      exact absurd hres (by simp)
  · rw [resolveOverlap_distinct a b heq] at hres
    obtain rfl : sortBlocks (coreList (lowerOf a b) (higherOf a b)) = res :=
      Option.some.inj hres
    have hperm := sortBlocks_perm (coreList (lowerOf a b) (higherOf a b))
    obtain ⟨hL, hH⟩ | ⟨hL, hH⟩ := lowerOf_higherOf_cases a b
    · rw [hL, hH] at hperm ⊢
      refine ⟨?_, sortBlocks_sorted _, ?_, ?_⟩
      · intro c hc
        exact coreList_valid b a hvb hva c (hperm.mem_iff.mp hc)
      · intro x
        rw [covered_of_perm hperm x, coreList_covered b a (isIntersecting_symm hint) x]
        tauto
      · rw [totalSize_of_perm hperm]
        have := coreList_totalSize b a hvb hva (isIntersecting_symm hint)
        omega
    · rw [hL, hH] at hperm ⊢
      refine ⟨?_, sortBlocks_sorted _, ?_, ?_⟩
      · intro c hc
        exact coreList_valid a b hva hvb c (hperm.mem_iff.mp hc)
      · intro x
        rw [covered_of_perm hperm x, coreList_covered a b hint x]
      · rw [totalSize_of_perm hperm]
        exact coreList_totalSize a b hva hvb hint

set_option maxHeartbeats 1000000 in
/-- Invariant of the scanning loop: from a valid, sorted list, a clean exit
yields a valid, sorted list covering exactly the same read indices. -/
theorem rsmAux_done_props (fuel : Nat) :
    ∀ (l : List OverlapBlock) (p : Nat) (out : List OverlapBlock),
    (∀ b ∈ l, b.ranges.interval0.isValid) → l.Pairwise blockLE →
    rsmAux fuel l p = some (RsmResult.done out) →
    (∀ b ∈ out, b.ranges.interval0.isValid) ∧ out.Pairwise blockLE ∧
      (∀ x, covered out x ↔ covered l x) := by
  induction fuel with
  | zero =>
    intro l p out _ _ h
    simp [rsmAux] at h
  | succ fuel ih =>
    intro l p out hv hs h
    rw [rsmAux] at h
    by_cases hp : p + 1 < l.length
    · rw [dif_pos hp] at h
      by_cases hint :
          Interval.isIntersecting (l[p].l0) (l[p].u0) (l[p + 1].l0) (l[p + 1].u0)
      · rw [if_pos hint] at h
        cases hres : resolveOverlap l[p] l[p + 1] with
        | none => rw [hres] at h; simp at h
        | some res =>
          rw [hres] at h
          have hmem_p : l[p] ∈ l := List.getElem_mem _
          have hmem_p1 : l[p + 1] ∈ l := List.getElem_mem _
          have hprops := resolve_some_props l[p] l[p + 1] res
            (hv _ hmem_p) (hv _ hmem_p1) hint hres
          have hepm := eraseTwo_perm l p hp
          have hmerge := mergeBlocks_perm (eraseTwoAt l p) res
          have hvnew : ∀ c ∈ mergeBlocks (eraseTwoAt l p) res,
              c.ranges.interval0.isValid := by
            intro c hc
            rcases List.mem_append.mp (hmerge.mem_iff.mp hc) with hc | hc
            · exact hv c ((eraseTwo_sublist l p).subset hc)
            · exact hprops.1 c hc
          have hsnew : (mergeBlocks (eraseTwoAt l p) res).Pairwise blockLE :=
            mergeBlocks_sorted (hs.sublist (eraseTwo_sublist l p)) hprops.2.1
          obtain ⟨o1, o2, o3⟩ := ih _ 0 out hvnew hsnew h
          refine ⟨o1, o2, ?_⟩
          intro x
          have e1 : covered (mergeBlocks (eraseTwoAt l p) res) x ↔
              covered (eraseTwoAt l p) x ∨ covered res x := by
            rw [covered_of_perm hmerge x, covered_append]
          have e2 : covered l x ↔
              inBlock l[p] x ∨ inBlock l[p + 1] x ∨ covered (eraseTwoAt l p) x := by
            rw [covered_of_perm hepm x, covered_cons, covered_cons]
          rw [o3 x, e1, e2, hprops.2.2.1 x]
          tauto
      · rw [if_neg hint] at h
        exact ih l (p + 1) out hv hs h
    · rw [dif_neg hp] at h
      have hh := Option.some.inj h
      injection hh with hh2
      subst hh2
      exact ⟨hv, hs, fun x => Iff.rfl⟩

set_option maxHeartbeats 1000000 in
/-- On a clean exit of the scanning loop, no two adjacent blocks of the final
list intersect on index 0: the loop exits only after a full scan finds no
intersecting adjacent pair. -/
theorem rsmAux_done_chain (fuel : Nat) :
    ∀ (l : List OverlapBlock) (p : Nat) (out : List OverlapBlock),
    rsmAux fuel l p = some (RsmResult.done out) →
    (∀ (i : Nat) (h1 : i + 1 < l.length), i < p →
      ¬ Interval.isIntersecting (l[i].l0) (l[i].u0) (l[i + 1].l0) (l[i + 1].u0)) →
    out.Chain' (fun a b => ¬ Interval.isIntersecting a.l0 a.u0 b.l0 b.u0) := by
  induction fuel with
  | zero =>
    intro l p out h _
    simp [rsmAux] at h
  | succ fuel ih =>
    intro l p out h hpre
    rw [rsmAux] at h
    by_cases hp : p + 1 < l.length
    · rw [dif_pos hp] at h
      by_cases hint :
          Interval.isIntersecting (l[p].l0) (l[p].u0) (l[p + 1].l0) (l[p + 1].u0)
      · rw [if_pos hint] at h
        cases hres : resolveOverlap l[p] l[p + 1] with
        | none => rw [hres] at h; simp at h
        | some res =>
          rw [hres] at h
          exact ih _ 0 out h (fun i h1 h2 => absurd h2 (by omega))
      · rw [if_neg hint] at h
        refine ih l (p + 1) out h ?_
        intro i h1 h2
        by_cases hi : i < p
        · exact hpre i h1 hi
        · have hip : i = p := by omega
          subst hip
          exact hint
    · rw [dif_neg hp] at h
      have hh := Option.some.inj h
      injection hh with hh2
      subst hh2
      rw [List.chain'_iff_get]
      intro i hi
      have h1 : i + 1 < l.length := by omega
      have hcur := hpre i h1 (by omega)
      simpa [List.get_eq_getElem] using hcur

/-- Termination of the scanning loop: on a list of valid blocks there is
always enough fuel for rsmAux to reach either a clean exit or the fatal
assertion; each resolution step strictly decreases the total multiplicity of
covered read indices, and between resolutions the scan advances. -/
theorem rsmAux_term (N : Nat) :
    ∀ l : List OverlapBlock, totalSize l ≤ N →
    (∀ b ∈ l, b.ranges.interval0.isValid) →
    ∀ p, ∃ fuel r, rsmAux fuel l p = some r := by
  induction N with
  | zero =>
    intro l hN hv p
    have hnil : l = [] := by
      cases l with
      | nil => rfl
      | cons c cs =>
        exfalso
        have h1 := blockSize0_pos c (hv c (List.mem_cons_self c cs))
        simp [totalSize] at hN
        omega
    subst hnil
    refine ⟨1, RsmResult.done [], ?_⟩
    rw [rsmAux, dif_neg (by simp)]
  | succ N ihN =>
    intro l hN hv
    have inner : ∀ k p : Nat, l.length ≤ p + k →
        ∃ fuel r, rsmAux fuel l p = some r := by
      intro k
      induction k with
      | zero =>
        intro p hp
        refine ⟨1, RsmResult.done l, ?_⟩
        rw [rsmAux, dif_neg (by omega)]
      | succ k ihk =>
        intro p hp
        by_cases hplen : p + 1 < l.length
        · by_cases hint :
              Interval.isIntersecting (l[p].l0) (l[p].u0) (l[p + 1].l0) (l[p + 1].u0)
          · cases hres : resolveOverlap l[p] l[p + 1] with
            | none =>
              refine ⟨1, RsmResult.fatal, ?_⟩
              rw [rsmAux, dif_pos hplen, if_pos hint, hres]
            | some res =>
              have hmem_p : l[p] ∈ l := List.getElem_mem _
              have hmem_p1 : l[p + 1] ∈ l := List.getElem_mem _
              have hprops := resolve_some_props l[p] l[p + 1] res
                (hv _ hmem_p) (hv _ hmem_p1) hint hres
              have hepm := eraseTwo_perm l p hplen
              have hmerge := mergeBlocks_perm (eraseTwoAt l p) res
              have hsize : totalSize (mergeBlocks (eraseTwoAt l p) res) ≤ N := by
                have hlt := hprops.2.2.2
                have ht1 : totalSize l = blockSize0 l[p] +
                    (blockSize0 l[p + 1] + totalSize (eraseTwoAt l p)) := by
                  rw [totalSize_of_perm hepm]
                  simp [totalSize]
                have ht2 : totalSize (mergeBlocks (eraseTwoAt l p) res) =
                    totalSize (eraseTwoAt l p) + totalSize res := by
                  rw [totalSize_of_perm hmerge]
                  simp [totalSize]
                omega
              have hvnew : ∀ c ∈ mergeBlocks (eraseTwoAt l p) res,
                  c.ranges.interval0.isValid := by
                intro c hc
                rcases List.mem_append.mp (hmerge.mem_iff.mp hc) with hc | hc
                · exact hv c ((eraseTwo_sublist l p).subset hc)
                · exact hprops.1 c hc
              obtain ⟨fuel, r, hr⟩ := ihN (mergeBlocks (eraseTwoAt l p) res) hsize hvnew 0
              refine ⟨fuel + 1, r, ?_⟩
              rw [rsmAux, dif_pos hplen, if_pos hint, hres]
              exact hr
          · obtain ⟨fuel, r, hr⟩ := ihk (p + 1) (by omega)
            refine ⟨fuel + 1, r, ?_⟩
            rw [rsmAux, dif_pos hplen, if_neg hint]
            exact hr
        · refine ⟨1, RsmResult.done l, ?_⟩
          rw [rsmAux, dif_neg hplen]
    exact fun p => inner l.length p (by omega)

/-- On a list of valid blocks sorted by left coordinate, if no two adjacent
blocks intersect then consecutive blocks are strictly separated. -/
theorem chain_sep :
    ∀ l : List OverlapBlock, (∀ b ∈ l, b.ranges.interval0.isValid) →
    l.Pairwise blockLE →
    l.Chain' (fun a b => ¬ Interval.isIntersecting a.l0 a.u0 b.l0 b.u0) →
    l.Pairwise (fun a b => a.u0 < b.l0) := by
  intro l
  induction l with
  | nil => intro _ _ _; exact List.Pairwise.nil
  | cons a l ih =>
    intro hv hp hc
    rcases List.pairwise_cons.mp hp with ⟨hple, hptail⟩
    have ihl := ih (fun b hb => hv b (List.mem_cons_of_mem a hb)) hptail hc.tail
    refine List.pairwise_cons.mpr ⟨?_, ihl⟩
    intro b hb
    cases l with
    | nil => cases hb
    | cons c m =>
      have hac : ¬ Interval.isIntersecting a.l0 a.u0 c.l0 c.u0 :=
        (List.chain'_cons.mp hc).1
      have hva := hv a (List.mem_cons_self a _)
      have hvc := hv c (List.mem_cons_of_mem a (List.mem_cons_self c m))
      have hle := hple c (List.mem_cons_self c m)
      have hsep_ac : a.u0 < c.l0 := by
        unfold blockLE blockLT at hle
        unfold Interval.isIntersecting at hac
        unfold Interval.isValid at hva hvc
        unfold OverlapBlock.l0 OverlapBlock.u0 at hle hac ⊢
        omega
      rcases List.mem_cons.mp hb with rfl | hbm
      · exact hsep_ac
      · have hcb := (List.pairwise_cons.mp ihl).1 b hbm
        have hvc2 : c.ranges.interval0.lower ≤ c.ranges.interval0.upper := hvc
        unfold OverlapBlock.l0 OverlapBlock.u0 at hsep_ac hcb ⊢
        omega

/-- Strict separation of the index-0 ranges implies they share no read index. -/
theorem sep_disjoint {l : List OverlapBlock}
    (h : l.Pairwise fun a b => a.u0 < b.l0) : l.Pairwise disjointRanges := by
  refine h.imp ?_
  intro a b hab
  intro x hx
  rcases hx with ⟨⟨-, h2⟩, h3, -⟩
  omega

/-- C2: whenever removeSubMaximalBlocks terminates cleanly on a list of valid
blocks, the output's index-0 ranges are pairwise disjoint (no read index
counted twice) and the output covers exactly the same set of read indices as
the input (no read index dropped, none added); the absorbed sub-maximal
fragments never remove an index from the union, because the longer block
covering them is kept whole. -/
theorem removeSubMaximalBlocks_disjoint_union (fuel : Nat) (l out : List OverlapBlock)
    (hv : ∀ b ∈ l, b.ranges.interval0.isValid)
    (h : removeSubMaximalBlocks fuel l = some (RsmResult.done out)) :
    out.Pairwise disjointRanges ∧ (∀ x : Int, covered out x ↔ covered l x) := by
  unfold removeSubMaximalBlocks at h
  have hvs : ∀ b ∈ sortBlocks l, b.ranges.interval0.isValid :=
    fun b hb => hv b (mem_sortBlocks.mp hb)
  obtain ⟨o1, o2, o3⟩ :=
    rsmAux_done_props fuel (sortBlocks l) 0 out hvs (sortBlocks_sorted l) h
  have hchain := rsmAux_done_chain fuel (sortBlocks l) 0 out h
    (fun i h1 h2 => absurd h2 (by omega))
  refine ⟨sep_disjoint (chain_sep out o1 o2 hchain), ?_⟩
  intro x
  rw [o3 x, covered_of_perm (sortBlocks_perm l) x]

/-- Witness for C2: two overlapping blocks are resolved into three disjoint
ranges covering the same indices 0..5. -/
theorem removeSubMaximalBlocks_disjoint_union_witness :
    (∀ b ∈ [mkBlock 0 5 10 15 3, mkBlock 2 4 20 22 7], b.ranges.interval0.isValid) ∧
    ([mkBlock 0 1 10 11 3, mkBlock 2 4 20 22 7, mkBlock 5 5 15 15 3].Pairwise
        disjointRanges ∧
      (∀ x : Int,
        covered [mkBlock 0 1 10 11 3, mkBlock 2 4 20 22 7, mkBlock 5 5 15 15 3] x ↔
        covered [mkBlock 0 5 10 15 3, mkBlock 2 4 20 22 7] x)) :=
  ⟨by decide,
   removeSubMaximalBlocks_disjoint_union 10
     [mkBlock 0 5 10 15 3, mkBlock 2 4 20 22 7]
     [mkBlock 0 1 10 11 3, mkBlock 2 4 20 22 7, mkBlock 5 5 15 15 3]
     (by decide) (by decide)⟩

/-- C9: on any finite list of valid blocks the removeSubMaximalBlocks loop
terminates: some finite fuel suffices to reach either the fatal assertion or
a clean exit, and a clean exit happens exactly when no adjacent pair of the
final list intersects on index 0. -/
theorem removeSubMaximalBlocks_terminates (l : List OverlapBlock)
    (hv : ∀ b ∈ l, b.ranges.interval0.isValid) :
    ∃ fuel r, removeSubMaximalBlocks fuel l = some r ∧
      ∀ out, r = RsmResult.done out →
        out.Chain' (fun a b => ¬ Interval.isIntersecting a.l0 a.u0 b.l0 b.u0) := by
  unfold removeSubMaximalBlocks
  have hvs : ∀ b ∈ sortBlocks l, b.ranges.interval0.isValid :=
    fun b hb => hv b (mem_sortBlocks.mp hb)
  obtain ⟨fuel, r, hr⟩ := rsmAux_term (totalSize (sortBlocks l)) (sortBlocks l) le_rfl hvs 0
  refine ⟨fuel, r, hr, ?_⟩
  intro out hout
  subst hout
  exact rsmAux_done_chain fuel (sortBlocks l) 0 out hr
    (fun i h1 h2 => absurd h2 (by omega))

/-- Witness for C9: the loop terminates on a concrete overlapping pair. -/
theorem removeSubMaximalBlocks_terminates_witness :
    (∀ b ∈ [mkBlock 0 5 10 15 3, mkBlock 2 4 20 22 7], b.ranges.interval0.isValid) ∧
    ∃ fuel r,
      removeSubMaximalBlocks fuel [mkBlock 0 5 10 15 3, mkBlock 2 4 20 22 7] = some r ∧
      ∀ out, r = RsmResult.done out →
        out.Chain' (fun a b => ¬ Interval.isIntersecting a.l0 a.u0 b.l0 b.u0) :=
  ⟨by decide,
   removeSubMaximalBlocks_terminates [mkBlock 0 5 10 15 3, mkBlock 2 4 20 22 7]
     (by decide)⟩

/-- C8: the MultiOverlap builder skips exactly the blocks whose post-flip
query coordinate is a full containment; every emitted entry has
isReverseComplement false; the sequence of synthetic target ids is the
stringified read indices of the surviving blocks' index-0 ranges; the number
of entries is the sum of the surviving blocks' index-0 range sizes; and
blockIdxList enumerates exactly the integers of [lower, upper] inclusive. -/
theorem blockListToMultiOverlap_entries (ovlStr : OverlapBlock → String)
    (readIdx : String) (readLen : Int) (blocks : List OverlapBlock) :
    (∀ e ∈ blockListToMultiOverlap ovlStr readIdx readLen blocks, e.2.isRC = false) ∧
    (blockListToMultiOverlap ovlStr readIdx readLen blocks).map (fun e => e.2.targetId) =
      blocks.flatMap (fun b =>
        if (queryCoordOfBlock b readLen).isContained then []
        else (blockIdxList b).map makeIdxString) ∧
    (blockListToMultiOverlap ovlStr readIdx readLen blocks).length =
      (blocks.map (fun b =>
        if (queryCoordOfBlock b readLen).isContained then 0
        else (b.u0 - b.l0 + 1).toNat)).sum ∧
    (∀ (b : OverlapBlock) (i : Int), i ∈ blockIdxList b ↔ b.l0 ≤ i ∧ i ≤ b.u0) := by
  have hidx : ∀ (b : OverlapBlock) (i : Int), i ∈ blockIdxList b ↔ b.l0 ≤ i ∧ i ≤ b.u0 := by
    intro b i
    unfold blockIdxList
    constructor
    · intro hi
      rcases List.mem_map.mp hi with ⟨k, hk, rfl⟩
      have hk2 := List.mem_range.mp hk
      omega
    · rintro ⟨h1, h2⟩
      refine List.mem_map.mpr ⟨(i - b.l0).toNat, List.mem_range.mpr (by omega), by omega⟩
  induction blocks with
  | nil => exact ⟨fun e he => absurd he (List.not_mem_nil e), rfl, rfl, hidx⟩
  | cons b rest ih =>
    obtain ⟨ih1, ih2, ih3, -⟩ := ih
    refine ⟨?_, ?_, ?_, hidx⟩
    · intro e he
      simp only [blockListToMultiOverlap] at he
      rcases List.mem_append.mp he with he | he
      · simp only [blockEntries] at he
        by_cases hcont : (queryCoordOfBlock b readLen).isContained
        · rw [if_pos hcont] at he
          exact absurd he (List.not_mem_nil e)
        · rw [if_neg hcont] at he
          rcases List.mem_map.mp he with ⟨i, -, rfl⟩
          rfl
      · exact ih1 e he
    · simp only [blockListToMultiOverlap, List.map_append, List.flatMap_cons, ih2]
      congr 1
      simp only [blockEntries]
      by_cases hcont : (queryCoordOfBlock b readLen).isContained
      · rw [if_pos hcont, if_pos hcont]
        rfl
      · rw [if_neg hcont, if_neg hcont, List.map_map]
        rfl
    · simp only [blockListToMultiOverlap, List.length_append, List.map_cons,
        List.sum_cons, ih3]
      congr 1
      simp only [blockEntries]
      by_cases hcont : (queryCoordOfBlock b readLen).isContained
      · rw [if_pos hcont, if_pos hcont]
        rfl
      · rw [if_neg hcont, if_neg hcont, List.length_map]
        simp [blockIdxList, OverlapBlock.l0, OverlapBlock.u0]

end SGA
